import Mathlib

/-!
Verification of the mkldnn 0.1 inner-product reference path.

The embedding follows `tests/gtests/test_inner_product.cpp` (the reference
kernel `compute_ref_inner_product_fwd`, the test descriptor and the test
setup logic) and `src/cpu/reference_convolution.hpp` (the `constraint`
interface).  The layout mapper `map_index`, memory descriptors and the
`constraint` body are not part of the two files, so they are modelled from
the specification where indicated.

Element values are modelled as exact rationals; machine indices as `Nat`.
-/

namespace Mkldnn

/-- Shape descriptor of an inner-product test case
(`test_inner_product_descr_t`): minibatch, input channels, output channels
and the two kernel extents. -/
structure test_inner_product_descr_t where
  mb : Nat
  ic : Nat
  oc : Nat
  kh : Nat
  kw : Nat
  deriving DecidableEq, Repr

/-- The memory layout tags exercised by the inner-product test
(`memory::format`): contiguous row-major tags `x`, `nc`, `oi`, `nchw`,
`oihw`, and the channel-blocked-by-8 tags `nChw8c` (activations) and
`oIhw8i` (weights). -/
inductive format where
  | x
  | nc
  | oi
  | nchw
  | oihw
  | nChw8c
  | oIhw8i
  deriving DecidableEq, Repr

/-- Memory descriptor: logical dimensions plus a layout tag
(shape-level model of `memory::desc`). -/
structure memDesc where
  dims : List Nat
  layout : format
  deriving DecidableEq, Repr

/-- Logical element count of a memory descriptor: the product of its
dimensions. -/
def logicalCount (md : memDesc) : Nat := md.dims.prod

/-- Modelled from the spec: the offset computation of the Layout Mapper for a
4-D tensor whose axis 1 (extent `B`) is blocked by 8.  The linear row-major
logical index `i` is decomposed into its digits `(a, b, h, w)`; axis 1 is
split into `outer = b / 8` and `inner = b % 8`, `outer` occupies the position
of axis 1 in an otherwise-contiguous layout over `(B + 7) / 8` blocks, and
`inner` is appended as the fastest-varying trailing axis of extent 8. -/
def blockedMap (B H W i : Nat) : Nat :=
  (((i / (W * H * B) * ((B + 7) / 8) + i / (W * H) % B / 8) * H + i / W % H) * W
      + i % W) * 8 + i / (W * H) % B % 8

/-- Inverse direction of `blockedMap`: peels the physical offset back into the
row-major linear logical index.  Used to establish injectivity. -/
def blockedUnmap (B H W o : Nat) : Nat :=
  ((o / 8 / W / H / ((B + 7) / 8) * B + (o / 8 / W / H % ((B + 7) / 8) * 8 + o % 8)) * H
      + o / 8 / W % H) * W + o / 8 % W

/-- Blocked-layout dispatch on the dimension list: a 4-D dimension list has
its axis 1 blocked by 8; other ranks fall back to the identity. -/
def blocked4Map (dims : List Nat) (i : Nat) : Nat :=
  match dims with
  | [_, b, h, w] => blockedMap b h w i
  | _ => i

/-- Physical footprint of a 4-D blocked descriptor: the blocked axis is
padded up to a whole number of 8-wide blocks. -/
def blocked4Count (dims : List Nat) : Nat :=
  match dims with
  | [a, b, h, w] => a * ((b + 7) / 8) * h * w * 8
  | _ => dims.prod

/-- Modelled from the spec: the Layout Mapper (`map_index` of the test
harness, whose definition is not under src/).  Given a memory descriptor and
the row-major linear logical index, it returns the physical element offset.
For the contiguous row-major tags the strided recomposition of the decomposed
multi-index is the identity on the linear index; for the blocked tags
`nChw8c` and `oIhw8i` axis 1 is split by 8 as described in `blockedMap`. -/
def map_index (md : memDesc) (i : Nat) : Nat :=
  match md.layout with
  | format.nChw8c => blocked4Map md.dims i
  | format.oIhw8i => blocked4Map md.dims i
  | _ => i

/-- Allocated physical element footprint of a memory descriptor; for blocked
layouts this exceeds the logical count when the blocked axis extent is not a
multiple of 8. -/
def physCount (md : memDesc) : Nat :=
  match md.layout with
  | format.nChw8c => blocked4Count md.dims
  | format.oIhw8i => blocked4Count md.dims
  | _ => md.dims.prod

/-- Expected rank of each layout tag. -/
def formatRank : format → Nat
  | format.x => 1
  | format.nc => 2
  | format.oi => 2
  | _ => 4

/-- A well-formed memory descriptor: the dimension list has the rank implied
by the layout tag and every extent is positive. -/
def validMD (md : memDesc) : Prop :=
  md.dims.length = formatRank md.layout ∧ ∀ d ∈ md.dims, 0 < d

/-- The four memory bindings of the inner-product reference computation:
source, weights, optional bias and destination buffers, each a map from
physical element offset to its value. -/
structure memState where
  src : Nat → ℚ
  weights : Nat → ℚ
  bias : Option (Nat → ℚ)
  dst : Nat → ℚ

/-- Store value `v` at physical offset `o` of the destination buffer; the
other three buffers are untouched. -/
def writeDst (s : memState) (o : Nat) (v : ℚ) : memState :=
  { s with dst := fun j => if j = o then v else s.dst j }

/-- The bias term of one output element: `bias_data` is consulted through the
layout mapper when a bias buffer is bound, and the term is zero otherwise
(`bias_data ? bias_data[map_index(bias_d, oc)] : 0.0`). -/
def biasVal (bias_d : memDesc) (bias : Option (Nat → ℚ)) (oc : Nat) : ℚ :=
  match bias with
  | some b => b (map_index bias_d oc)
  | none => 0

/-- Body of one `(n, oc)` iteration of `compute_ref_inner_product_fwd`: the
destination element at `map_index(dst_d, n * oc_count + oc)` is first
overwritten with the bias term, then the triple loop over
`(ic, kh, kw)` accumulates `src * weights` products into it, every access
going through `map_index` with that tensor's own descriptor. -/
def computeOne (ipd : test_inner_product_descr_t)
    (src_d weights_d bias_d dst_d : memDesc)
    (s : memState) (p : Nat × Nat) : memState :=
  let n := p.1
  let oc := p.2
  let src_data := s.src
  let weights_data := s.weights
  let oidx := n * ipd.oc + oc
  let o := map_index dst_d oidx
  let s0 := writeDst s o (biasVal bias_d s.bias oc)
  (List.range ipd.ic).foldl (fun s1 ic =>
    (List.range ipd.kh).foldl (fun s2 kh =>
      (List.range ipd.kw).foldl (fun s3 kw =>
        let iidx := n * ipd.ic * ipd.kh * ipd.kw + ic * ipd.kh * ipd.kw
            + kh * ipd.kw + kw
        let widx := oc * ipd.ic * ipd.kh * ipd.kw + ic * ipd.kh * ipd.kw
            + kh * ipd.kw + kw
        writeDst s3 o (s3.dst o
          + src_data (map_index src_d iidx)
            * weights_data (map_index weights_d widx))) s2) s1) s0

/-- The reference inner-product forward computation
(`compute_ref_inner_product_fwd`): the nested loops over `n < mb` and
`oc < oc_count`, each iteration running `computeOne`. -/
def compute_ref_inner_product_fwd (ipd : test_inner_product_descr_t)
    (src_d weights_d bias_d dst_d : memDesc) (s : memState) : memState :=
  (List.range ipd.mb).foldl (fun sn n =>
    (List.range ipd.oc).foldl (fun so oc =>
      computeOne ipd src_d weights_d bias_d dst_d so (n, oc)) sn) s

/-- The `(n, oc)` iteration space of the outer loops, in source loop order:
`n` major, `oc` minor. -/
def pairList (ipd : test_inner_product_descr_t) : List (Nat × Nat) :=
  (List.range ipd.mb).flatMap fun n =>
    (List.range ipd.oc).map fun oc => (n, oc)

/-- The reduction value of one output element `(n, oc)`: the sum over
`(ic, kh, kw)` of `src * weights`, every access going through the layout
mapper with that tensor's own descriptor. -/
def innerSum (ipd : test_inner_product_descr_t) (src_d weights_d : memDesc)
    (src weights : Nat → ℚ) (n oc : Nat) : ℚ :=
  ∑ ic ∈ Finset.range ipd.ic, ∑ kh ∈ Finset.range ipd.kh,
    ∑ kw ∈ Finset.range ipd.kw,
      src (map_index src_d (n * ipd.ic * ipd.kh * ipd.kw + ic * ipd.kh * ipd.kw
          + kh * ipd.kw + kw))
        * weights (map_index weights_d (oc * ipd.ic * ipd.kh * ipd.kw
            + ic * ipd.kh * ipd.kw + kh * ipd.kw + kw))

/-- The final value of one output element: bias term plus the reduction. -/
def outVal (ipd : test_inner_product_descr_t) (src_d weights_d bias_d : memDesc)
    (src weights : Nat → ℚ) (bias : Option (Nat → ℚ)) (p : Nat × Nat) : ℚ :=
  biasVal bias_d bias p.2 + innerSum ipd src_d weights_d src weights p.1 p.2

/-- Destination offset of the output element `(n, oc)`. -/
def dstOff (ipd : test_inner_product_descr_t) (dst_d : memDesc)
    (p : Nat × Nat) : Nat :=
  map_index dst_d (p.1 * ipd.oc + p.2)

theorem writeDst_src (s : memState) (o : Nat) (v : ℚ) :
    (writeDst s o v).src = s.src := rfl

theorem writeDst_weights (s : memState) (o : Nat) (v : ℚ) :
    (writeDst s o v).weights = s.weights := rfl

theorem writeDst_bias (s : memState) (o : Nat) (v : ℚ) :
    (writeDst s o v).bias = s.bias := rfl

theorem writeDst_dst_same (s : memState) (o : Nat) (v : ℚ) :
    (writeDst s o v).dst o = v := by
  simp [writeDst]

theorem writeDst_dst_other (s : memState) (o : Nat) (v : ℚ) (j : Nat)
    (hj : j ≠ o) : (writeDst s o v).dst j = s.dst j := by
  simp [writeDst, hj]

theorem writeDst_writeDst (s : memState) (o : Nat) (v w : ℚ) :
    writeDst (writeDst s o v) o w = writeDst s o w := by
  simp only [writeDst]
  congr 1
  funext j
  by_cases hj : j = o <;> simp [hj]

theorem writeDst_self (s : memState) (o : Nat) :
    writeDst s o (s.dst o) = s := by
  have hd : (fun j => if j = o then s.dst o else s.dst j) = s.dst := by
    funext j
    by_cases hj : j = o <;> simp [hj]
  simp only [writeDst, hd]

theorem writeDst_comm (s : memState) (o o' : Nat) (v v' : ℚ) (h : o ≠ o') :
    writeDst (writeDst s o v) o' v' = writeDst (writeDst s o' v') o v := by
  have h' : o' ≠ o := fun hh => h hh.symm
  simp only [writeDst]
  congr 1
  funext j
  by_cases h1 : j = o
  · subst h1
    simp [h]
  · by_cases h2 : j = o'
    · subst h2
      simp [h']
    · simp [h1, h2]

/-- A fold whose every step adds to the single destination cell `o` amounts
to one write of the accumulated sum into that cell. -/
theorem foldl_acc {τ : Type} (o : Nat) (g : τ → ℚ)
    (f : memState → τ → memState)
    (hf : ∀ s t, f s t = writeDst s o (s.dst o + g t)) :
    ∀ (L : List τ) (s : memState),
      L.foldl f s = writeDst s o (s.dst o + (L.map g).sum) := by
  intro L
  induction L with
  | nil =>
    intro s
    simp [writeDst_self]
  | cons a L ih =>
    intro s
    rw [List.foldl_cons, ih, hf, writeDst_writeDst, writeDst_dst_same]
    rw [List.map_cons, List.sum_cons, add_assoc]

/-- Sum over `List.range` agrees with the `Finset.range` sum. -/
theorem list_range_map_sum (n : Nat) (g : Nat → ℚ) :
    ((List.range n).map g).sum = ∑ i ∈ Finset.range n, g i := by
  induction n with
  | zero => simp
  | succ m ih =>
    rw [List.range_succ, List.map_append, List.sum_append,
      Finset.sum_range_succ, ih]
    simp

/-- A triply nested fold accumulating into the single destination cell `o`
amounts to one write of the triple sum into that cell. -/
theorem triple_foldl_acc (o : Nat) (ϕ : Nat → Nat → Nat → ℚ) (I K1 K2 : Nat)
    (s0 : memState) :
    (List.range I).foldl (fun s1 ic =>
      (List.range K1).foldl (fun s2 kh =>
        (List.range K2).foldl (fun s3 kw =>
          writeDst s3 o (s3.dst o + ϕ ic kh kw)) s2) s1) s0
    = writeDst s0 o (s0.dst o + ∑ ic ∈ Finset.range I, ∑ kh ∈ Finset.range K1,
        ∑ kw ∈ Finset.range K2, ϕ ic kh kw) := by
  have h3 : ∀ (ic kh : Nat) (s : memState),
      (List.range K2).foldl (fun s3 kw => writeDst s3 o (s3.dst o + ϕ ic kh kw)) s
      = writeDst s o (s.dst o + ∑ kw ∈ Finset.range K2, ϕ ic kh kw) := by
    intro ic kh s
    rw [← list_range_map_sum]
    exact foldl_acc o (ϕ ic kh) _ (fun s' t => rfl) _ s
  have h2 : ∀ (ic : Nat) (s : memState),
      (List.range K1).foldl (fun s2 kh =>
        (List.range K2).foldl (fun s3 kw =>
          writeDst s3 o (s3.dst o + ϕ ic kh kw)) s2) s
      = writeDst s o (s.dst o + ∑ kh ∈ Finset.range K1,
          ∑ kw ∈ Finset.range K2, ϕ ic kh kw) := by
    intro ic s
    have hstep := foldl_acc o (fun kh => ∑ kw ∈ Finset.range K2, ϕ ic kh kw) _
      (fun s' t => h3 ic t s') (List.range K1) s
    rw [hstep, list_range_map_sum]
  have hstep := foldl_acc o
    (fun ic => ∑ kh ∈ Finset.range K1, ∑ kw ∈ Finset.range K2, ϕ ic kh kw) _
    (fun s' t => h2 t s') (List.range I) s0
  rw [hstep, list_range_map_sum]

theorem div_mul_add_mod (x Y : Nat) : x / Y * Y + x % Y = x := by
  rw [Nat.mul_comm]
  exact Nat.div_add_mod x Y

theorem peel_mod (x y Y : Nat) (h : y < Y) : (x * Y + y) % Y = y := by
  rw [Nat.mul_comm, Nat.mul_add_mod]
  exact Nat.mod_eq_of_lt h

theorem peel_div (x y Y : Nat) (h : y < Y) : (x * Y + y) / Y = x := by
  have hY : 0 < Y := Nat.lt_of_le_of_lt (Nat.zero_le y) h
  rw [Nat.mul_comm, Nat.mul_add_div hY, Nat.div_eq_of_lt h, Nat.add_zero]

theorem mixed_lt (x y X Y : Nat) (hx : x < X) (hy : y < Y) :
    x * Y + y < X * Y := by
  calc x * Y + y < x * Y + Y := by omega
    _ = (x + 1) * Y := by ring
    _ ≤ X * Y := Nat.mul_le_mul_right Y (by omega)

/-- One `(n, oc)` iteration is a single write: the bias term plus the triple
reduction is stored at that pair's destination offset. -/
theorem computeOne_eq (ipd : test_inner_product_descr_t)
    (src_d weights_d bias_d dst_d : memDesc) (s : memState) (p : Nat × Nat) :
    computeOne ipd src_d weights_d bias_d dst_d s p
      = writeDst s (dstOff ipd dst_d p)
          (outVal ipd src_d weights_d bias_d s.src s.weights s.bias p) := by
  rcases p with ⟨n, oc⟩
  show (List.range ipd.ic).foldl (fun s1 ic =>
      (List.range ipd.kh).foldl (fun s2 kh =>
        (List.range ipd.kw).foldl (fun s3 kw =>
          writeDst s3 (map_index dst_d (n * ipd.oc + oc))
            (s3.dst (map_index dst_d (n * ipd.oc + oc))
              + s.src (map_index src_d (n * ipd.ic * ipd.kh * ipd.kw
                  + ic * ipd.kh * ipd.kw + kh * ipd.kw + kw))
                * s.weights (map_index weights_d (oc * ipd.ic * ipd.kh * ipd.kw
                  + ic * ipd.kh * ipd.kw + kh * ipd.kw + kw)))) s2) s1)
      (writeDst s (map_index dst_d (n * ipd.oc + oc)) (biasVal bias_d s.bias oc))
    = _
  rw [triple_foldl_acc (map_index dst_d (n * ipd.oc + oc))
    (fun ic kh kw =>
      s.src (map_index src_d (n * ipd.ic * ipd.kh * ipd.kw
          + ic * ipd.kh * ipd.kw + kh * ipd.kw + kw))
        * s.weights (map_index weights_d (oc * ipd.ic * ipd.kh * ipd.kw
          + ic * ipd.kh * ipd.kw + kh * ipd.kw + kw)))
    ipd.ic ipd.kh ipd.kw]
  rw [writeDst_writeDst, writeDst_dst_same]
  rfl

theorem foldl_computeOne_src (ipd : test_inner_product_descr_t)
    (src_d weights_d bias_d dst_d : memDesc) (L : List (Nat × Nat)) :
    ∀ s : memState,
      (L.foldl (computeOne ipd src_d weights_d bias_d dst_d) s).src = s.src := by
  induction L with
  | nil => intro s; rfl
  | cons a L ih =>
    intro s
    rw [List.foldl_cons, ih, computeOne_eq, writeDst_src]

theorem foldl_computeOne_weights (ipd : test_inner_product_descr_t)
    (src_d weights_d bias_d dst_d : memDesc) (L : List (Nat × Nat)) :
    ∀ s : memState,
      (L.foldl (computeOne ipd src_d weights_d bias_d dst_d) s).weights
        = s.weights := by
  induction L with
  | nil => intro s; rfl
  | cons a L ih =>
    intro s
    rw [List.foldl_cons, ih, computeOne_eq, writeDst_weights]

theorem foldl_computeOne_bias (ipd : test_inner_product_descr_t)
    (src_d weights_d bias_d dst_d : memDesc) (L : List (Nat × Nat)) :
    ∀ s : memState,
      (L.foldl (computeOne ipd src_d weights_d bias_d dst_d) s).bias = s.bias := by
  induction L with
  | nil => intro s; rfl
  | cons a L ih =>
    intro s
    rw [List.foldl_cons, ih, computeOne_eq, writeDst_bias]

/-- Destination cells that no pair of the iteration list writes to keep
their initial value. -/
theorem foldl_computeOne_frame (ipd : test_inner_product_descr_t)
    (src_d weights_d bias_d dst_d : memDesc) (L : List (Nat × Nat)) :
    ∀ (s : memState) (j : Nat), (∀ p ∈ L, dstOff ipd dst_d p ≠ j) →
      (L.foldl (computeOne ipd src_d weights_d bias_d dst_d) s).dst j
        = s.dst j := by
  induction L with
  | nil => intro s j _; rfl
  | cons a L ih =>
    intro s j hj
    rw [List.foldl_cons, ih _ j (fun p hp => hj p (List.mem_cons_of_mem a hp)),
      computeOne_eq, writeDst_dst_other]
    exact fun he => hj a (List.mem_cons_self a L) he.symm

/-- When the destination offsets of the iteration list are pairwise distinct,
the final value of a pair's destination cell is that pair's `outVal`,
computed from the initial source/weights/bias buffers. -/
theorem foldl_computeOne_written (ipd : test_inner_product_descr_t)
    (src_d weights_d bias_d dst_d : memDesc) (L : List (Nat × Nat))
    (hpw : L.Pairwise (fun p q => dstOff ipd dst_d p ≠ dstOff ipd dst_d q)) :
    ∀ (s : memState) (p : Nat × Nat), p ∈ L →
      (L.foldl (computeOne ipd src_d weights_d bias_d dst_d) s).dst
          (dstOff ipd dst_d p)
        = outVal ipd src_d weights_d bias_d s.src s.weights s.bias p := by
  induction L with
  | nil => intro s p hp; cases hp
  | cons a L ih =>
    intro s p hp
    rw [List.foldl_cons]
    rcases List.mem_cons.mp hp with h | h
    · subst h
      rw [foldl_computeOne_frame ipd src_d weights_d bias_d dst_d L _ _
        (fun q hq he => ((List.pairwise_cons.mp hpw).1 q hq) he.symm)]
      rw [computeOne_eq, writeDst_dst_same]
    · rw [ih (List.pairwise_cons.mp hpw).2 _ p h, computeOne_eq,
        writeDst_src, writeDst_weights, writeDst_bias]

theorem mem_pairList (ipd : test_inner_product_descr_t) (p : Nat × Nat) :
    p ∈ pairList ipd ↔ p.1 < ipd.mb ∧ p.2 < ipd.oc := by
  rcases p with ⟨n, oc⟩
  simp only [pairList, List.mem_flatMap, List.mem_map, List.mem_range]
  constructor
  · rintro ⟨a, ha, b, hb, h⟩
    cases h
    exact ⟨ha, hb⟩
  · rintro ⟨h1, h2⟩
    exact ⟨n, h1, oc, h2, rfl⟩

theorem pairList_nodup (ipd : test_inner_product_descr_t) :
    (pairList ipd).Pairwise (fun p q => p ≠ q) := by
  rw [pairList, List.pairwise_flatMap]
  constructor
  · intro a _
    rw [List.pairwise_map]
    exact (List.pairwise_lt_range ipd.oc).imp
      (fun hlt heq => Nat.ne_of_lt hlt (congrArg Prod.snd heq))
  · apply (List.pairwise_lt_range ipd.mb).imp
    intro a1 a2 hlt x hx y hy heq
    rcases List.mem_map.mp hx with ⟨b1, _, hb1⟩
    rcases List.mem_map.mp hy with ⟨b2, _, hb2⟩
    subst hb1
    subst hb2
    exact Nat.ne_of_lt hlt (congrArg Prod.fst heq)

/-- Injectivity of the destination mapper on the output range makes the
destination offsets of the `(n, oc)` iteration space pairwise distinct. -/
theorem pairList_pairwise_off (ipd : test_inner_product_descr_t)
    (dst_d : memDesc)
    (hinj : ∀ p q, p < ipd.mb * ipd.oc → q < ipd.mb * ipd.oc →
      map_index dst_d p = map_index dst_d q → p = q) :
    (pairList ipd).Pairwise
      (fun p q => dstOff ipd dst_d p ≠ dstOff ipd dst_d q) := by
  refine (pairList_nodup ipd).imp_of_mem ?_
  intro p q hp hq hne he
  rcases (mem_pairList ipd p).mp hp with ⟨hp1, hp2⟩
  rcases (mem_pairList ipd q).mp hq with ⟨hq1, hq2⟩
  apply hne
  have henc : p.1 * ipd.oc + p.2 = q.1 * ipd.oc + q.2 :=
    hinj _ _ (mixed_lt _ _ _ _ hp1 hp2) (mixed_lt _ _ _ _ hq1 hq2) he
  have h1 : p.1 = q.1 := by
    have e1 : (p.1 * ipd.oc + p.2) / ipd.oc = p.1 := peel_div _ _ _ hp2
    have e2 : (q.1 * ipd.oc + q.2) / ipd.oc = q.1 := peel_div _ _ _ hq2
    rw [← e1, ← e2, henc]
  have h2 : p.2 = q.2 := by
    rw [h1] at henc
    exact Nat.add_left_cancel henc
  exact Prod.ext h1 h2

/-- The nested source loops are the fold of `computeOne` over the flattened
`(n, oc)` iteration list. -/
theorem compute_ref_eq_pairFold (ipd : test_inner_product_descr_t)
    (src_d weights_d bias_d dst_d : memDesc) (s : memState) :
    compute_ref_inner_product_fwd ipd src_d weights_d bias_d dst_d s
      = (pairList ipd).foldl (computeOne ipd src_d weights_d bias_d dst_d) s := by
  simp only [compute_ref_inner_product_fwd, pairList, List.flatMap,
    List.foldl_flatten, List.foldl_map]

/-- Row-major digit decomposition of a linear index recomposes to the index. -/
theorem decomp4 (W H B i : Nat) :
    ((i / (W * H * B) * B + i / (W * H) % B) * H + i / W % H) * W + i % W = i := by
  have h1 : i / (W * H * B) = i / (W * H) / B :=
    (Nat.div_div_eq_div_mul i (W * H) B).symm
  have h2 : i / (W * H) = i / W / H := (Nat.div_div_eq_div_mul i W H).symm
  rw [h1, div_mul_add_mod (i / (W * H)) B, h2, div_mul_add_mod (i / W) H,
    div_mul_add_mod i W]

/-- Digit bounds and the decomposition identity for a linear index below the
4-D extent product. -/
theorem digits4 (A B H W i : Nat) (hB : 0 < B) (hH : 0 < H) (hW : 0 < W)
    (hi : i < A * B * H * W) :
    i / (W * H * B) < A ∧ i / (W * H) % B < B ∧ i / W % H < H ∧ i % W < W ∧
      ((i / (W * H * B) * B + i / (W * H) % B) * H + i / W % H) * W + i % W
        = i := by
  refine ⟨?_, Nat.mod_lt _ hB, Nat.mod_lt _ hH, Nat.mod_lt _ hW, decomp4 W H B i⟩
  have hpos : 0 < W * H * B := by positivity
  rw [Nat.div_lt_iff_lt_mul hpos]
  calc i < A * B * H * W := hi
    _ = A * (W * H * B) := by ring

/-- `blockedMap` on a linear index written in digit form. -/
theorem blockedMap_digits (B H W a b h w : Nat) (hb : b < B) (hh : h < H)
    (hw : w < W) :
    blockedMap B H W (((a * B + b) * H + h) * W + w)
      = (((a * ((B + 7) / 8) + b / 8) * H + h) * W + w) * 8 + b % 8 := by
  have e1 : (((a * B + b) * H + h) * W + w) % W = w := peel_mod _ _ _ hw
  have e2 : (((a * B + b) * H + h) * W + w) / W = (a * B + b) * H + h :=
    peel_div _ _ _ hw
  have e3 : (((a * B + b) * H + h) * W + w) / (W * H) = a * B + b := by
    rw [← Nat.div_div_eq_div_mul, e2, peel_div _ _ _ hh]
  have e4 : (((a * B + b) * H + h) * W + w) / W % H = h := by
    rw [e2, peel_mod _ _ _ hh]
  have e5 : (((a * B + b) * H + h) * W + w) / (W * H) % B = b := by
    rw [e3, peel_mod _ _ _ hb]
  have e6 : (((a * B + b) * H + h) * W + w) / (W * H * B) = a := by
    rw [show W * H * B = W * H * B from rfl, ← Nat.div_div_eq_div_mul, e3,
      peel_div _ _ _ hb]
  simp only [blockedMap, e1, e4, e5, e6]

/-- `blockedUnmap` inverts the blocked offset of a digit-form index. -/
theorem blockedUnmap_digits (B H W a b h w : Nat) (hb : b < B) (hh : h < H)
    (hw : w < W) :
    blockedUnmap B H W ((((a * ((B + 7) / 8) + b / 8) * H + h) * W + w) * 8
        + b % 8)
      = ((a * B + b) * H + h) * W + w := by
  have h8 : b % 8 < 8 := Nat.mod_lt _ (by omega)
  have hdiv8 : b / 8 < (B + 7) / 8 := by omega
  set o := (((a * ((B + 7) / 8) + b / 8) * H + h) * W + w) * 8 + b % 8 with ho
  have f1 : o % 8 = b % 8 := peel_mod _ _ _ h8
  have f2 : o / 8 = ((a * ((B + 7) / 8) + b / 8) * H + h) * W + w :=
    peel_div _ _ _ h8
  have f3 : o / 8 % W = w := by rw [f2, peel_mod _ _ _ hw]
  have f4 : o / 8 / W = (a * ((B + 7) / 8) + b / 8) * H + h := by
    rw [f2, peel_div _ _ _ hw]
  have f5 : o / 8 / W % H = h := by rw [f4, peel_mod _ _ _ hh]
  have f6 : o / 8 / W / H = a * ((B + 7) / 8) + b / 8 := by
    rw [f4, peel_div _ _ _ hh]
  have f7 : o / 8 / W / H % ((B + 7) / 8) = b / 8 := by
    rw [f6, peel_mod _ _ _ hdiv8]
  have f8 : o / 8 / W / H / ((B + 7) / 8) = a := by
    rw [f6, peel_div _ _ _ hdiv8]
  simp only [blockedUnmap, f1, f3, f5, f7, f8]
  have hbb : b / 8 * 8 + b % 8 = b := by omega
  rw [hbb]

/-- The blocked offset stays strictly inside the padded physical footprint. -/
theorem blockedMap_lt (A B H W : Nat) (hB : 0 < B) (hH : 0 < H) (hW : 0 < W)
    (i : Nat) (hi : i < A * B * H * W) :
    blockedMap B H W i < A * ((B + 7) / 8) * H * W * 8 := by
  obtain ⟨ha, hb, hh, hw, hrep⟩ := digits4 A B H W i hB hH hW hi
  set a := i / (W * H * B) with hadef
  set b := i / (W * H) % B with hbdef
  set h := i / W % H with hhdef
  set w := i % W with hwdef
  have hm := blockedMap_digits B H W a b h w hb hh hw
  rw [hrep] at hm
  rw [hm]
  have h1 : a * ((B + 7) / 8) + b / 8 < A * ((B + 7) / 8) :=
    mixed_lt _ _ _ _ ha (by omega)
  have h2 := mixed_lt _ _ _ _ h1 hh
  have h3 := mixed_lt _ _ _ _ h2 hw
  exact mixed_lt _ _ _ _ h3 (show b % 8 < 8 by omega)

/-- `blockedUnmap` is a left inverse of `blockedMap` on the logical range. -/
theorem blocked_roundtrip (A B H W : Nat) (hB : 0 < B) (hH : 0 < H)
    (hW : 0 < W) (i : Nat) (hi : i < A * B * H * W) :
    blockedUnmap B H W (blockedMap B H W i) = i := by
  obtain ⟨_, hb, hh, hw, hrep⟩ := digits4 A B H W i hB hH hW hi
  set a := i / (W * H * B) with hadef
  set b := i / (W * H) % B with hbdef
  set h := i / W % H with hhdef
  set w := i % W with hwdef
  have hm := blockedMap_digits B H W a b h w hb hh hw
  rw [hrep] at hm
  rw [hm, blockedUnmap_digits B H W a b h w hb hh hw, hrep]

/-- `blockedMap` is injective on the logical range. -/
theorem blockedMap_inj (A B H W : Nat) (hB : 0 < B) (hH : 0 < H) (hW : 0 < W)
    (i j : Nat) (hi : i < A * B * H * W) (hj : j < A * B * H * W)
    (he : blockedMap B H W i = blockedMap B H W j) : i = j := by
  rw [← blocked_roundtrip A B H W hB hH hW i hi,
    ← blocked_roundtrip A B H W hB hH hW j hj, he]

/-- Bound and injectivity of the blocked mapper for any well-formed 4-D
dimension list. -/
theorem blocked4_ok (dims : List Nat) (hlen : dims.length = 4)
    (hpos : ∀ d ∈ dims, 0 < d) :
    (∀ i, i < dims.prod → blocked4Map dims i < blocked4Count dims) ∧
    (∀ i j, i < dims.prod → j < dims.prod →
      blocked4Map dims i = blocked4Map dims j → i = j) := by
  rcases dims with _ | ⟨a, dims⟩
  · simp at hlen
  rcases dims with _ | ⟨b, dims⟩
  · simp at hlen
  rcases dims with _ | ⟨c, dims⟩
  · simp at hlen
  rcases dims with _ | ⟨d, dims⟩
  · simp at hlen
  rcases dims with _ | ⟨e, dims⟩
  case cons.cons.cons.cons.cons =>
    simp only [List.length_cons] at hlen
    omega
  have hb : 0 < b := hpos b (by simp)
  have hc : 0 < c := hpos c (by simp)
  have hd : 0 < d := hpos d (by simp)
  have hprod : ([a, b, c, d] : List Nat).prod = a * b * c * d := by
    simp
    ring
  constructor
  · intro i hi
    rw [hprod] at hi
    simpa [blocked4Map, blocked4Count] using blockedMap_lt a b c d hb hc hd i hi
  · intro i j hi hj he
    rw [hprod] at hi
    rw [hprod] at hj
    simp only [blocked4Map] at he
    exact blockedMap_inj a b c d hb hc hd i j hi hj he

/-- For every well-formed memory descriptor the layout mapper stays inside
the physical footprint and is injective on the logical range. -/
theorem map_index_valid_ok (md : memDesc) (hv : validMD md) :
    (∀ i, i < logicalCount md → map_index md i < physCount md) ∧
    (∀ i j, i < logicalCount md → j < logicalCount md →
      map_index md i = map_index md j → i = j) := by
  obtain ⟨hlen, hpos⟩ := hv
  rcases md with ⟨dims, layout⟩
  cases layout
  case nChw8c =>
    simpa [map_index, physCount, logicalCount] using blocked4_ok dims hlen hpos
  case oIhw8i =>
    simpa [map_index, physCount, logicalCount] using blocked4_ok dims hlen hpos
  all_goals
    refine ⟨fun i hi => ?_, fun i j _ _ he => ?_⟩
  all_goals
    simp_all [map_index, physCount, logicalCount]

/-- C4: for every supported layout tag and every well-formed memory
descriptor built from it, the layout mapper is injective over the valid
logical index range (distinct logical indices map to distinct physical
offsets) and every returned offset lies strictly within the memory's
allocated physical footprint. -/
theorem c4_map_index_inj_bounded (md : memDesc) (hv : validMD md) :
    (∀ i, i < logicalCount md → map_index md i < physCount md) ∧
    (∀ i j, i < logicalCount md → j < logicalCount md →
      map_index md i = map_index md j → i = j) :=
  map_index_valid_ok md hv

/-- Witness for C4 at the blocked activation descriptor of the test. -/
theorem c4_witness :
    validMD ⟨[2, 32, 6, 6], format.nChw8c⟩ ∧
      ((∀ i, i < logicalCount ⟨[2, 32, 6, 6], format.nChw8c⟩ →
          map_index ⟨[2, 32, 6, 6], format.nChw8c⟩ i
            < physCount ⟨[2, 32, 6, 6], format.nChw8c⟩) ∧
        (∀ i j, i < logicalCount ⟨[2, 32, 6, 6], format.nChw8c⟩ →
          j < logicalCount ⟨[2, 32, 6, 6], format.nChw8c⟩ →
          map_index ⟨[2, 32, 6, 6], format.nChw8c⟩ i
            = map_index ⟨[2, 32, 6, 6], format.nChw8c⟩ j → i = j)) :=
  ⟨⟨rfl, by decide⟩, c4_map_index_inj_bounded _ ⟨rfl, by decide⟩⟩

/-- Master formula: when the destination mapper is injective on the output
index range, the reference computation leaves each output element at the bias
term plus the `(ic, kh, kw)` reduction, read off the initial buffers. -/
theorem compute_ref_at (ipd : test_inner_product_descr_t)
    (src_d weights_d bias_d dst_d : memDesc) (s : memState)
    (hinj : ∀ p q, p < ipd.mb * ipd.oc → q < ipd.mb * ipd.oc →
      map_index dst_d p = map_index dst_d q → p = q)
    (n oc : Nat) (hn : n < ipd.mb) (hoc : oc < ipd.oc) :
    (compute_ref_inner_product_fwd ipd src_d weights_d bias_d dst_d s).dst
        (map_index dst_d (n * ipd.oc + oc))
      = biasVal bias_d s.bias oc
        + innerSum ipd src_d weights_d s.src s.weights n oc := by
  rw [compute_ref_eq_pairFold]
  exact foldl_computeOne_written ipd src_d weights_d bias_d dst_d
    (pairList ipd) (pairList_pairwise_off ipd dst_d hinj) s (n, oc)
    ((mem_pairList ipd (n, oc)).mpr ⟨hn, hoc⟩)

/-- The `(n, oc)` pair is recovered from its flattened output index. -/
theorem enc_inj (OC : Nat) (p q : Nat × Nat) (hp : p.2 < OC) (hq : q.2 < OC)
    (he : p.1 * OC + p.2 = q.1 * OC + q.2) : p = q := by
  have h1 : p.1 = q.1 := by
    have e1 := peel_div p.1 p.2 OC hp
    have e2 := peel_div q.1 q.2 OC hq
    rw [← e1, ← e2, he]
  refine Prod.ext h1 ?_
  rw [h1] at he
  exact Nat.add_left_cancel he

/-- A well-formed destination descriptor whose logical range covers the
output index range gives an injective destination mapper on that range. -/
theorem dst_inj_of_valid (ipd : test_inner_product_descr_t) (dst_d : memDesc)
    (hv : validMD dst_d) (hcnt : ipd.mb * ipd.oc ≤ logicalCount dst_d) :
    ∀ p q, p < ipd.mb * ipd.oc → q < ipd.mb * ipd.oc →
      map_index dst_d p = map_index dst_d q → p = q :=
  fun p q hp hq he => (map_index_valid_ok dst_d hv).2 p q
    (Nat.lt_of_lt_of_le hp hcnt) (Nat.lt_of_lt_of_le hq hcnt) he

/-- C1: for every test descriptor and bound src/weights/bias/dst memories
(the destination descriptor well formed and covering the output range), the
reference inner-product forward computation sets, for every `(n, oc)` with
`n < mb` and `oc < oc_count`, the destination element at
`map_index(dst_d, n * oc_count + oc)` to `bias[oc]` (zero when no bias
buffer is bound) plus the sum over `(ic, kh, kw)` of
`src[n, ic, kh, kw] * weights[oc, ic, kh, kw]`, every element access going
through `map_index` with that tensor's own memory descriptor. -/
theorem c1_compute_ref_formula (ipd : test_inner_product_descr_t)
    (src_d weights_d bias_d dst_d : memDesc) (s : memState)
    (hv : validMD dst_d) (hcnt : ipd.mb * ipd.oc ≤ logicalCount dst_d)
    (n oc : Nat) (hn : n < ipd.mb) (hoc : oc < ipd.oc) :
    (compute_ref_inner_product_fwd ipd src_d weights_d bias_d dst_d s).dst
        (map_index dst_d (n * ipd.oc + oc))
      = (match s.bias with
          | some b => b (map_index bias_d oc)
          | none => 0)
        + ∑ ic ∈ Finset.range ipd.ic, ∑ kh ∈ Finset.range ipd.kh,
            ∑ kw ∈ Finset.range ipd.kw,
              s.src (map_index src_d (n * ipd.ic * ipd.kh * ipd.kw
                  + ic * ipd.kh * ipd.kw + kh * ipd.kw + kw))
                * s.weights (map_index weights_d (oc * ipd.ic * ipd.kh * ipd.kw
                    + ic * ipd.kh * ipd.kw + kh * ipd.kw + kw)) :=
  compute_ref_at ipd src_d weights_d bias_d dst_d s
    (dst_inj_of_valid ipd dst_d hv hcnt) n oc hn hoc

/-- Minimal concrete descriptor for witnesses: all extents 1. -/
def ipd1 : test_inner_product_descr_t := ⟨1, 1, 1, 1, 1⟩

/-- One-element vector descriptor used by witnesses. -/
def mdX1 : memDesc := ⟨[1], format.x⟩

/-- One-element `nc` destination descriptor used by witnesses. -/
def mdNc1 : memDesc := ⟨[1, 1], format.nc⟩

/-- Concrete memory bindings used by witnesses: constant source and
weights, no bias, zero destination. -/
def wState : memState := ⟨fun _ => 1, fun _ => 1, none, fun _ => 0⟩

/-- Witness for C1 at the all-ones one-element instance. -/
theorem c1_witness :
    validMD mdNc1 ∧ ipd1.mb * ipd1.oc ≤ logicalCount mdNc1 ∧
      0 < ipd1.mb ∧ 0 < ipd1.oc ∧
      (compute_ref_inner_product_fwd ipd1 mdX1 mdX1 mdX1 mdNc1 wState).dst
          (map_index mdNc1 (0 * ipd1.oc + 0))
        = (match wState.bias with
            | some b => b (map_index mdX1 0)
            | none => 0)
          + ∑ ic ∈ Finset.range ipd1.ic, ∑ kh ∈ Finset.range ipd1.kh,
              ∑ kw ∈ Finset.range ipd1.kw,
                wState.src (map_index mdX1 (0 * ipd1.ic * ipd1.kh * ipd1.kw
                    + ic * ipd1.kh * ipd1.kw + kh * ipd1.kw + kw))
                  * wState.weights (map_index mdX1 (0 * ipd1.ic * ipd1.kh * ipd1.kw
                      + ic * ipd1.kh * ipd1.kw + kh * ipd1.kw + kw)) :=
  ⟨⟨rfl, by decide⟩, by decide, by decide, by decide,
    c1_compute_ref_formula ipd1 mdX1 mdX1 mdX1 mdNc1 wState ⟨rfl, by decide⟩
      (by decide) 0 0 (by decide) (by decide)⟩

/-- C7: during the reference inner-product forward computation the source,
weights and bias buffers are never written: their contents after the
computation equal their contents before it, the destination being the only
buffer mutated. -/
theorem c7_inputs_read_only (ipd : test_inner_product_descr_t)
    (src_d weights_d bias_d dst_d : memDesc) (s : memState) :
    (compute_ref_inner_product_fwd ipd src_d weights_d bias_d dst_d s).src
        = s.src
      ∧ (compute_ref_inner_product_fwd ipd src_d weights_d bias_d dst_d s).weights
          = s.weights
      ∧ (compute_ref_inner_product_fwd ipd src_d weights_d bias_d dst_d s).bias
          = s.bias := by
  refine ⟨?_, ?_, ?_⟩
  · rw [compute_ref_eq_pairFold]
    exact foldl_computeOne_src ipd src_d weights_d bias_d dst_d (pairList ipd) s
  · rw [compute_ref_eq_pairFold]
    exact foldl_computeOne_weights ipd src_d weights_d bias_d dst_d (pairList ipd) s
  · rw [compute_ref_eq_pairFold]
    exact foldl_computeOne_bias ipd src_d weights_d bias_d dst_d (pairList ipd) s

/-- C10: the final destination content is independent of the destination
buffer's initial contents: two runs differing only in the initial `dst`
values produce equal destination contents, each output offset being
overwritten with the bias term before any accumulation. -/
theorem c10_dst_initial_independent (ipd : test_inner_product_descr_t)
    (src_d weights_d bias_d : memDesc) (s : memState) (d1 d2 : Nat → ℚ)
    (j : Nat) (hj : j < ipd.mb * ipd.oc) :
    (compute_ref_inner_product_fwd ipd src_d weights_d bias_d
        ⟨[ipd.mb, ipd.oc], format.nc⟩ { s with dst := d1 }).dst j
      = (compute_ref_inner_product_fwd ipd src_d weights_d bias_d
          ⟨[ipd.mb, ipd.oc], format.nc⟩ { s with dst := d2 }).dst j := by
  have hoc : 0 < ipd.oc := by
    rcases Nat.eq_zero_or_pos ipd.oc with h | h
    · rw [h, Nat.mul_zero] at hj
      omega
    · exact h
  have hn : j / ipd.oc < ipd.mb := (Nat.div_lt_iff_lt_mul hoc).mpr hj
  have hocb : j % ipd.oc < ipd.oc := Nat.mod_lt _ hoc
  have henc : j / ipd.oc * ipd.oc + j % ipd.oc = j := div_mul_add_mod j ipd.oc
  have hid : ∀ x, map_index ⟨[ipd.mb, ipd.oc], format.nc⟩ x = x := fun x => rfl
  have hinj : ∀ p q, p < ipd.mb * ipd.oc → q < ipd.mb * ipd.oc →
      map_index ⟨[ipd.mb, ipd.oc], format.nc⟩ p
        = map_index ⟨[ipd.mb, ipd.oc], format.nc⟩ q → p = q := by
    intro p q _ _ he
    rw [hid, hid] at he
    exact he
  have h1 := compute_ref_at ipd src_d weights_d bias_d
    ⟨[ipd.mb, ipd.oc], format.nc⟩ { s with dst := d1 } hinj (j / ipd.oc)
    (j % ipd.oc) hn hocb
  have h2 := compute_ref_at ipd src_d weights_d bias_d
    ⟨[ipd.mb, ipd.oc], format.nc⟩ { s with dst := d2 } hinj (j / ipd.oc)
    (j % ipd.oc) hn hocb
  rw [hid, henc] at h1 h2
  rw [h1, h2]

/-- C5: evaluating the outer loop over output elements `(n, oc)` in any
order — the source order or any permutation of the distinct pairs — produces
the same destination content: each pair accumulates into its own destination
offset, disjoint from every other pair's, and only reads the
source/weights/bias buffers; the accumulation order within one output
element stays the innermost loop order over `(ic, kh, kw)`. -/
theorem c5_order_independent (ipd : test_inner_product_descr_t)
    (src_d weights_d bias_d dst_d : memDesc) (s : memState)
    (hv : validMD dst_d) (hcnt : ipd.mb * ipd.oc ≤ logicalCount dst_d)
    (L : List (Nat × Nat)) (hL : L.Perm (pairList ipd)) :
    L.foldl (computeOne ipd src_d weights_d bias_d dst_d) s
      = compute_ref_inner_product_fwd ipd src_d weights_d bias_d dst_d s := by
  have hinj := dst_inj_of_valid ipd dst_d hv hcnt
  rw [compute_ref_eq_pairFold]
  apply List.Perm.foldl_eq' hL
  intro x hx y hy z
  rcases (mem_pairList ipd x).mp (hL.mem_iff.mp hx) with ⟨hx1, hx2⟩
  rcases (mem_pairList ipd y).mp (hL.mem_iff.mp hy) with ⟨hy1, hy2⟩
  by_cases hxy : x = y
  · rw [hxy]
  · have hoff : dstOff ipd dst_d x ≠ dstOff ipd dst_d y := by
      intro he
      exact hxy (enc_inj ipd.oc x y hx2 hy2
        (hinj _ _ (mixed_lt _ _ _ _ hx1 hx2) (mixed_lt _ _ _ _ hy1 hy2) he))
    simp only [computeOne_eq, writeDst_src, writeDst_weights, writeDst_bias]
    exact writeDst_comm z _ _ _ _ hoff

/-- Reversed two-pair iteration order used by the C5 witness. -/
def swappedPairs : List (Nat × Nat) := [(0, 1), (0, 0)]

/-- Two-output-channel descriptor used by the C5 witness. -/
def ipd12 : test_inner_product_descr_t := ⟨1, 1, 2, 1, 1⟩

/-- Two-element `nc` destination descriptor used by the C5 witness. -/
def mdNc12 : memDesc := ⟨[1, 2], format.nc⟩

/-- Two-element `oi` weights descriptor used by the C5 witness. -/
def mdOi12 : memDesc := ⟨[2, 1], format.oi⟩

/-- Witness for C5: running the two output elements in reversed order
matches the source loop order. -/
theorem c5_witness :
    validMD mdNc12 ∧ ipd12.mb * ipd12.oc ≤ logicalCount mdNc12 ∧
      swappedPairs.Perm (pairList ipd12) ∧
      swappedPairs.foldl (computeOne ipd12 mdX1 mdOi12 mdX1 mdNc12) wState
        = compute_ref_inner_product_fwd ipd12 mdX1 mdOi12 mdX1 mdNc12 wState :=
  ⟨⟨rfl, by decide⟩, by decide, by decide,
    c5_order_independent ipd12 mdX1 mdOi12 mdX1 mdNc12 wState ⟨rfl, by decide⟩
      (by decide) swappedPairs (by decide)⟩

/-- Modelled from the spec: the plain matrix multiply of the
`[batch, input_channels]` source matrix by the transposed
`[output_channels, input_channels]` weight matrix, plus bias. -/
def specMatMulBias (A B2 : Nat → Nat → ℚ) (bias : Nat → ℚ)
    (k n oc : Nat) : ℚ :=
  bias oc + ∑ i ∈ Finset.range k, A n i * B2 oc i

/-- C3: with both kernel extents 1, on the descriptor
`minibatch = 2, input_channels = 2, output_channels = 4`, every
`dst[n, oc]` equals `bias[oc]` plus the sum over `ic` of
`src[n, ic] * weights[oc, ic]` — the multiply of the `[2, 2]` source matrix
by the transposed `[4, 2]` weight matrix. -/
theorem c3_spatial_collapse_matmul (s : memState) (b : Nat → ℚ)
    (hb : s.bias = some b) (n oc : Nat) (hn : n < 2) (hoc : oc < 4) :
    (compute_ref_inner_product_fwd ⟨2, 2, 4, 1, 1⟩ ⟨[2, 2], format.nc⟩
          ⟨[4, 2], format.oi⟩ ⟨[4], format.x⟩ ⟨[2, 4], format.nc⟩ s).dst
        (n * 4 + oc)
      = b oc + ∑ ic ∈ Finset.range 2, s.src (n * 2 + ic) * s.weights (oc * 2 + ic)
    ∧ (compute_ref_inner_product_fwd ⟨2, 2, 4, 1, 1⟩ ⟨[2, 2], format.nc⟩
          ⟨[4, 2], format.oi⟩ ⟨[4], format.x⟩ ⟨[2, 4], format.nc⟩ s).dst
        (n * 4 + oc)
      = specMatMulBias (fun r c => s.src (r * 2 + c))
          (fun r c => s.weights (r * 2 + c)) b 2 n oc := by
  have hinj : ∀ p q, p < (⟨2, 2, 4, 1, 1⟩ : test_inner_product_descr_t).mb
        * (⟨2, 2, 4, 1, 1⟩ : test_inner_product_descr_t).oc →
      q < (⟨2, 2, 4, 1, 1⟩ : test_inner_product_descr_t).mb
        * (⟨2, 2, 4, 1, 1⟩ : test_inner_product_descr_t).oc →
      map_index ⟨[2, 4], format.nc⟩ p = map_index ⟨[2, 4], format.nc⟩ q →
      p = q := fun p q _ _ he => he
  have h := compute_ref_at ⟨2, 2, 4, 1, 1⟩ ⟨[2, 2], format.nc⟩
    ⟨[4, 2], format.oi⟩ ⟨[4], format.x⟩ ⟨[2, 4], format.nc⟩ s hinj n oc hn hoc
  rw [show map_index ⟨[2, 4], format.nc⟩ (n * 4 + oc) = n * 4 + oc from rfl] at h
  rw [show biasVal ⟨[4], format.x⟩ s.bias oc = b oc by rw [hb]; rfl] at h
  have hsum : innerSum ⟨2, 2, 4, 1, 1⟩ ⟨[2, 2], format.nc⟩
      ⟨[4, 2], format.oi⟩ s.src s.weights n oc
      = ∑ ic ∈ Finset.range 2, s.src (n * 2 + ic) * s.weights (oc * 2 + ic) := by
    simp only [innerSum, Finset.sum_range_one]
    apply Finset.sum_congr rfl
    intro ic _
    have e1 : n * 2 * 1 * 1 + ic * 1 * 1 + 0 * 1 + 0 = n * 2 + ic := by omega
    have e2 : oc * 2 * 1 * 1 + ic * 1 * 1 + 0 * 1 + 0 = oc * 2 + ic := by omega
    rw [show (map_index ⟨[2, 2], format.nc⟩ (n * 2 * 1 * 1 + ic * 1 * 1
        + 0 * 1 + 0)) = n * 2 * 1 * 1 + ic * 1 * 1 + 0 * 1 + 0 from rfl,
      show (map_index ⟨[4, 2], format.oi⟩ (oc * 2 * 1 * 1 + ic * 1 * 1
        + 0 * 1 + 0)) = oc * 2 * 1 * 1 + ic * 1 * 1 + 0 * 1 + 0 from rfl,
      e1, e2]
  rw [hsum] at h
  exact ⟨h, by rw [h]; rfl⟩

/-- Bias buffer used by the C3 witness. -/
def wBias : Nat → ℚ := fun i => (i : ℚ)

/-- Memory bindings with a bound bias buffer, used by the C3 witness. -/
def wStateB : memState := ⟨fun i => (i : ℚ), fun i => (i : ℚ), some wBias, fun _ => 0⟩

/-- Witness for C3 at `n = 1`, `oc = 3`. -/
theorem c3_witness :
    wStateB.bias = some wBias ∧ 1 < 2 ∧ 3 < 4 ∧
      ((compute_ref_inner_product_fwd ⟨2, 2, 4, 1, 1⟩ ⟨[2, 2], format.nc⟩
            ⟨[4, 2], format.oi⟩ ⟨[4], format.x⟩ ⟨[2, 4], format.nc⟩ wStateB).dst
          (1 * 4 + 3)
        = wBias 3 + ∑ ic ∈ Finset.range 2,
            wStateB.src (1 * 2 + ic) * wStateB.weights (3 * 2 + ic)
      ∧ (compute_ref_inner_product_fwd ⟨2, 2, 4, 1, 1⟩ ⟨[2, 2], format.nc⟩
            ⟨[4, 2], format.oi⟩ ⟨[4], format.x⟩ ⟨[2, 4], format.nc⟩ wStateB).dst
          (1 * 4 + 3)
        = specMatMulBias (fun r c => wStateB.src (r * 2 + c))
            (fun r c => wStateB.weights (r * 2 + c)) wBias 2 1 3) :=
  ⟨rfl, by decide, by decide,
    c3_spatial_collapse_matmul wStateB wBias rfl 1 3 (by decide) (by decide)⟩

/-- Test descriptor of the layout-comparison scenario:
`mb = 2, ic = 32, oc = 48, kh = kw = 6`. -/
def ipd2 : test_inner_product_descr_t := ⟨2, 32, 48, 6, 6⟩

/-- Contiguous activation descriptor `nchw [2, 32, 6, 6]`. -/
def srcMdPlain : memDesc := ⟨[2, 32, 6, 6], format.nchw⟩

/-- Blocked activation descriptor `nChw8c [2, 32, 6, 6]`. -/
def srcMdBlocked : memDesc := ⟨[2, 32, 6, 6], format.nChw8c⟩

/-- Contiguous weight descriptor `oihw [48, 32, 6, 6]`. -/
def weightsMdPlain : memDesc := ⟨[48, 32, 6, 6], format.oihw⟩

/-- Blocked weight descriptor `oIhw8i [48, 32, 6, 6]`. -/
def weightsMdBlocked : memDesc := ⟨[48, 32, 6, 6], format.oIhw8i⟩

/-- Bias descriptor `x [48]`. -/
def biasMd : memDesc := ⟨[48], format.x⟩

/-- Destination descriptor `nc [2, 48]`. -/
def dstMd2 : memDesc := ⟨[2, 48], format.nc⟩

/-- C2: for the two supported layout choices of the test — contiguous
`nchw`/`oihw` versus channel-blocked-by-8 `nChw8c`/`oIhw8i` — describing the
same logical source/weights/bias content on shapes src `[2, 32, 6, 6]`,
weights `[48, 32, 6, 6]`, bias `[48]`, the reference inner-product
computation produces identical destination content (exactly, in the
rational model). -/
theorem c2_layout_independent (srcL wL bL : Nat → ℚ) (sA sB : memState)
    (bA bB : Nat → ℚ)
    (hA1 : ∀ i, i < 2 * 32 * 6 * 6 → sA.src (map_index srcMdPlain i) = srcL i)
    (hA2 : ∀ i, i < 48 * 32 * 6 * 6 →
      sA.weights (map_index weightsMdPlain i) = wL i)
    (hA3 : sA.bias = some bA)
    (hA4 : ∀ i, i < 48 → bA (map_index biasMd i) = bL i)
    (hB1 : ∀ i, i < 2 * 32 * 6 * 6 → sB.src (map_index srcMdBlocked i) = srcL i)
    (hB2 : ∀ i, i < 48 * 32 * 6 * 6 →
      sB.weights (map_index weightsMdBlocked i) = wL i)
    (hB3 : sB.bias = some bB)
    (hB4 : ∀ i, i < 48 → bB (map_index biasMd i) = bL i)
    (n oc : Nat) (hn : n < 2) (hoc : oc < 48) :
    (compute_ref_inner_product_fwd ipd2 srcMdPlain weightsMdPlain biasMd
        dstMd2 sA).dst (map_index dstMd2 (n * 48 + oc))
      = (compute_ref_inner_product_fwd ipd2 srcMdBlocked weightsMdBlocked biasMd
          dstMd2 sB).dst (map_index dstMd2 (n * 48 + oc)) := by
  have hinj : ∀ p q, p < ipd2.mb * ipd2.oc → q < ipd2.mb * ipd2.oc →
      map_index dstMd2 p = map_index dstMd2 q → p = q :=
    fun p q _ _ he => he
  have h1 := compute_ref_at ipd2 srcMdPlain weightsMdPlain biasMd dstMd2 sA
    hinj n oc hn hoc
  have h2 := compute_ref_at ipd2 srcMdBlocked weightsMdBlocked biasMd dstMd2 sB
    hinj n oc hn hoc
  rw [show (n * ipd2.oc + oc) = n * 48 + oc from rfl] at h1 h2
  rw [h1, h2]
  have hbias : biasVal biasMd sA.bias oc = biasVal biasMd sB.bias oc := by
    rw [hA3, hB3]
    show bA (map_index biasMd oc) = bB (map_index biasMd oc)
    rw [hA4 oc hoc, hB4 oc hoc]
  have hsum : innerSum ipd2 srcMdPlain weightsMdPlain sA.src sA.weights n oc
      = innerSum ipd2 srcMdBlocked weightsMdBlocked sB.src sB.weights n oc := by
    unfold innerSum
    apply Finset.sum_congr rfl
    intro ic hic
    apply Finset.sum_congr rfl
    intro kh hkh
    apply Finset.sum_congr rfl
    intro kw hkw
    rw [Finset.mem_range] at hic hkh hkw
    have hic' : ic < 32 := hic
    have hkh' : kh < 6 := hkh
    have hkw' : kw < 6 := hkw
    have hiidx : n * ipd2.ic * ipd2.kh * ipd2.kw + ic * ipd2.kh * ipd2.kw
        + kh * ipd2.kw + kw < 2 * 32 * 6 * 6 := by
      show n * 32 * 6 * 6 + ic * 6 * 6 + kh * 6 + kw < 2 * 32 * 6 * 6
      omega
    have hwidx : oc * ipd2.ic * ipd2.kh * ipd2.kw + ic * ipd2.kh * ipd2.kw
        + kh * ipd2.kw + kw < 48 * 32 * 6 * 6 := by
      show oc * 32 * 6 * 6 + ic * 6 * 6 + kh * 6 + kw < 48 * 32 * 6 * 6
      omega
    rw [hA1 _ hiidx, hB1 _ hiidx, hA2 _ hwidx, hB2 _ hwidx]
  rw [hbias, hsum]

/-- The zero buffer, used by the C2 witness. -/
def zeroFun : Nat → ℚ := fun _ => 0

/-- All-zero memory bindings with a bound zero bias, used by the C2
witness. -/
def zState : memState := ⟨zeroFun, zeroFun, some zeroFun, zeroFun⟩

/-- Witness for C2: the all-zero content satisfies every content hypothesis
and the two layout runs agree at output `(0, 0)`. -/
theorem c2_witness :
    (∀ i, i < 2 * 32 * 6 * 6 → zState.src (map_index srcMdPlain i) = zeroFun i) ∧
    (∀ i, i < 48 * 32 * 6 * 6 →
      zState.weights (map_index weightsMdPlain i) = zeroFun i) ∧
    zState.bias = some zeroFun ∧
    (∀ i, i < 48 → zeroFun (map_index biasMd i) = zeroFun i) ∧
    (∀ i, i < 2 * 32 * 6 * 6 → zState.src (map_index srcMdBlocked i) = zeroFun i) ∧
    (∀ i, i < 48 * 32 * 6 * 6 →
      zState.weights (map_index weightsMdBlocked i) = zeroFun i) ∧
    (0 : Nat) < 2 ∧ (0 : Nat) < 48 ∧
    (compute_ref_inner_product_fwd ipd2 srcMdPlain weightsMdPlain biasMd
        dstMd2 zState).dst (map_index dstMd2 (0 * 48 + 0))
      = (compute_ref_inner_product_fwd ipd2 srcMdBlocked weightsMdBlocked biasMd
          dstMd2 zState).dst (map_index dstMd2 (0 * 48 + 0)) :=
  ⟨fun i _ => rfl, fun i _ => rfl, rfl, fun i _ => rfl, fun i _ => rfl,
    fun i _ => rfl, by decide, by decide,
    c2_layout_independent zeroFun zeroFun zeroFun zState zState zeroFun zeroFun
      (fun i _ => rfl) (fun i _ => rfl) rfl (fun i _ => rfl) (fun i _ => rfl)
      (fun i _ => rfl) rfl (fun i _ => rfl) 0 0 (by decide) (by decide)⟩

/-- Witness for C10 at the one-element instance with two different initial
destination buffers. -/
theorem c10_witness :
    0 < ipd1.mb * ipd1.oc ∧
      (compute_ref_inner_product_fwd ipd1 mdX1 mdX1 mdX1
          ⟨[ipd1.mb, ipd1.oc], format.nc⟩ { wState with dst := fun _ => 5 }).dst 0
        = (compute_ref_inner_product_fwd ipd1 mdX1 mdX1 mdX1
            ⟨[ipd1.mb, ipd1.oc], format.nc⟩ { wState with dst := fun _ => 7 }).dst 0 :=
  ⟨by decide, c10_dst_initial_independent ipd1 mdX1 mdX1 mdX1 wState
    (fun _ => 5) (fun _ => 7) 0 (by decide)⟩

/-- The test setup's spatial classification
(`bool has_spatial = ipd.kh > 1 && ipd.kw > 1`). -/
def has_spatial (ipd : test_inner_product_descr_t) : Bool :=
  decide (1 < ipd.kh) && decide (1 < ipd.kw)

/-- Dimensions of the source memory descriptor created by the test setup. -/
def ip_src_dims (ipd : test_inner_product_descr_t) : List Nat :=
  if has_spatial ipd then [ipd.mb, ipd.ic, ipd.kh, ipd.kw] else [ipd.mb, ipd.ic]

/-- Dimensions of the weight memory descriptor created by the test setup. -/
def ip_weights_dims (ipd : test_inner_product_descr_t) : List Nat :=
  if has_spatial ipd then [ipd.oc, ipd.ic, ipd.kh, ipd.kw] else [ipd.oc, ipd.ic]

/-- The linear source indices `iidx` that the reference loops pass to the
layout mapper, in loop order. -/
def srcIndicesUsed (ipd : test_inner_product_descr_t) : List Nat :=
  (List.range ipd.mb).flatMap fun n =>
    (List.range ipd.oc).flatMap fun _ =>
      (List.range ipd.ic).flatMap fun ic =>
        (List.range ipd.kh).flatMap fun kh =>
          (List.range ipd.kw).map fun kw =>
            n * ipd.ic * ipd.kh * ipd.kw + ic * ipd.kh * ipd.kw
              + kh * ipd.kw + kw

/-- The largest linear source index generated by the loops. -/
theorem max_iidx (A I K1 K2 : Nat) (hA : 0 < A) (hI : 0 < I) (hK1 : 0 < K1)
    (hK2 : 0 < K2) :
    (A - 1) * I * K1 * K2 + (I - 1) * K1 * K2 + (K1 - 1) * K2 + (K2 - 1)
      = A * I * K1 * K2 - 1 := by
  obtain ⟨a, rfl⟩ : ∃ x, A = x + 1 := ⟨A - 1, by omega⟩
  obtain ⟨ii, rfl⟩ : ∃ x, I = x + 1 := ⟨I - 1, by omega⟩
  obtain ⟨k1, rfl⟩ : ∃ x, K1 = x + 1 := ⟨K1 - 1, by omega⟩
  obtain ⟨k2, rfl⟩ : ∃ x, K2 = x + 1 := ⟨K2 - 1, by omega⟩
  simp only [Nat.add_sub_cancel]
  have hexp : (a + 1) * (ii + 1) * (k1 + 1) * (k2 + 1)
      = a * (ii + 1) * (k1 + 1) * (k2 + 1) + ii * (k1 + 1) * (k2 + 1)
        + k1 * (k2 + 1) + k2 + 1 := by ring
  omega

theorem le_mul_sub_one (M K : Nat) (hM : 0 < M) (hK : 2 ≤ K) :
    M ≤ M * K - 1 := by
  have h := Nat.mul_le_mul_left M hK
  omega

/-- C9: the test setup classifies a descriptor as spatial (4-D source and
weight descriptors of logical sizes `mb * ic * kh * kw` and
`oc * ic * kh * kw`) exactly when `kh > 1` and `kw > 1`; when exactly one of
`kh, kw` equals 1 and the other exceeds 1 it creates 2-D descriptors of
logical sizes `mb * ic` and `oc * ic`, while the reference loops still pass
linear indices up to `mb * ic * kh * kw - 1` to the layout mapper — at
least one generated index reaches or exceeds the 2-D descriptor's logical
element count `mb * ic`. -/
theorem c9_mixed_spatial_mismatch (ipd : test_inner_product_descr_t)
    (hmb : 0 < ipd.mb) (hic : 0 < ipd.ic) (hoc : 0 < ipd.oc)
    (hmix : (ipd.kh = 1 ∧ 1 < ipd.kw) ∨ (1 < ipd.kh ∧ ipd.kw = 1)) :
    (∀ q : test_inner_product_descr_t,
        has_spatial q = true ↔ (1 < q.kh ∧ 1 < q.kw)) ∧
    (∀ q : test_inner_product_descr_t, has_spatial q = true →
        ip_src_dims q = [q.mb, q.ic, q.kh, q.kw]
        ∧ (ip_src_dims q).prod = q.mb * q.ic * q.kh * q.kw
        ∧ ip_weights_dims q = [q.oc, q.ic, q.kh, q.kw]
        ∧ (ip_weights_dims q).prod = q.oc * q.ic * q.kh * q.kw) ∧
    has_spatial ipd = false ∧
    ip_src_dims ipd = [ipd.mb, ipd.ic] ∧
    (ip_src_dims ipd).prod = ipd.mb * ipd.ic ∧
    ip_weights_dims ipd = [ipd.oc, ipd.ic] ∧
    (ipd.mb * ipd.ic * ipd.kh * ipd.kw - 1) ∈ srcIndicesUsed ipd ∧
    ipd.mb * ipd.ic ≤ ipd.mb * ipd.ic * ipd.kh * ipd.kw - 1 := by
  have hsp : has_spatial ipd = false := by
    rcases hmix with ⟨h1, h2⟩ | ⟨h1, h2⟩
    · simp [has_spatial, h1]
    · simp [has_spatial, h2]
  have hk1 : 0 < ipd.kh := by rcases hmix with ⟨h1, _⟩ | ⟨h1, _⟩ <;> omega
  have hk2 : 0 < ipd.kw := by rcases hmix with ⟨_, h2⟩ | ⟨_, h2⟩ <;> omega
  have hsrc2 : ip_src_dims ipd = [ipd.mb, ipd.ic] := by
    simp [ip_src_dims, hsp]
  have hw2 : ip_weights_dims ipd = [ipd.oc, ipd.ic] := by
    simp [ip_weights_dims, hsp]
  refine ⟨?_, ?_, hsp, hsrc2, ?_, hw2, ?_, ?_⟩
  · intro q
    simp [has_spatial]
  · intro q hq
    have e1 : ip_src_dims q = [q.mb, q.ic, q.kh, q.kw] := by
      simp [ip_src_dims, hq]
    have e2 : ip_weights_dims q = [q.oc, q.ic, q.kh, q.kw] := by
      simp [ip_weights_dims, hq]
    refine ⟨e1, ?_, e2, ?_⟩
    · rw [e1]
      simp [List.prod_cons, mul_assoc]
    · rw [e2]
      simp [List.prod_cons, mul_assoc]
  · rw [hsrc2]
    simp [List.prod_cons]
  · rw [← max_iidx ipd.mb ipd.ic ipd.kh ipd.kw hmb hic hk1 hk2]
    refine List.mem_flatMap.mpr ⟨ipd.mb - 1, List.mem_range.mpr (by omega), ?_⟩
    refine List.mem_flatMap.mpr ⟨0, List.mem_range.mpr hoc, ?_⟩
    refine List.mem_flatMap.mpr ⟨ipd.ic - 1, List.mem_range.mpr (by omega), ?_⟩
    refine List.mem_flatMap.mpr ⟨ipd.kh - 1, List.mem_range.mpr (by omega), ?_⟩
    exact List.mem_map.mpr ⟨ipd.kw - 1, List.mem_range.mpr (by omega), rfl⟩
  · rcases hmix with ⟨h1, h2⟩ | ⟨h1, h2⟩
    · rw [h1, Nat.mul_one]
      exact le_mul_sub_one _ _ (Nat.mul_pos hmb hic) (by omega)
    · rw [h2, Nat.mul_one]
      exact le_mul_sub_one _ _ (Nat.mul_pos hmb hic) (by omega)

/-- Mixed-extent descriptor `kh = 1, kw = 2` used by the C9 witness. -/
def ipd9 : test_inner_product_descr_t := ⟨1, 1, 1, 1, 2⟩

/-- Witness for C9 at the `kh = 1, kw = 2` descriptor. -/
theorem c9_witness :
    (0 < ipd9.mb ∧ 0 < ipd9.ic ∧ 0 < ipd9.oc ∧
      ((ipd9.kh = 1 ∧ 1 < ipd9.kw) ∨ (1 < ipd9.kh ∧ ipd9.kw = 1))) ∧
      ((∀ q : test_inner_product_descr_t,
          has_spatial q = true ↔ (1 < q.kh ∧ 1 < q.kw)) ∧
        (∀ q : test_inner_product_descr_t, has_spatial q = true →
          ip_src_dims q = [q.mb, q.ic, q.kh, q.kw]
          ∧ (ip_src_dims q).prod = q.mb * q.ic * q.kh * q.kw
          ∧ ip_weights_dims q = [q.oc, q.ic, q.kh, q.kw]
          ∧ (ip_weights_dims q).prod = q.oc * q.ic * q.kh * q.kw) ∧
        has_spatial ipd9 = false ∧
        ip_src_dims ipd9 = [ipd9.mb, ipd9.ic] ∧
        (ip_src_dims ipd9).prod = ipd9.mb * ipd9.ic ∧
        ip_weights_dims ipd9 = [ipd9.oc, ipd9.ic] ∧
        (ipd9.mb * ipd9.ic * ipd9.kh * ipd9.kw - 1) ∈ srcIndicesUsed ipd9 ∧
        ipd9.mb * ipd9.ic ≤ ipd9.mb * ipd9.ic * ipd9.kh * ipd9.kw - 1) :=
  ⟨⟨by decide, by decide, by decide, by decide⟩,
    c9_mixed_spatial_mismatch ipd9 (by decide) (by decide) (by decide)
      (by decide)⟩

/-- Status values of the `constraint` check, following the spec's error
taxonomy: `Success`, `UnsupportedEngine`, `InvalidOperationShape`. -/
inductive status where
  | success
  | unsupported_engine
  | invalid_operation_shape
  deriving DecidableEq, Repr

/-- Engine kinds: `cpu` and `cpu_lazy` are the supported kinds of the test;
`any` stands for an engine kind outside the supported set. -/
inductive engine_kind where
  | any
  | cpu
  | cpu_lazy
  deriving DecidableEq, Repr

/-- Modelled from the spec: the body of `reference_convolution::constraint`
(only declared in `src/cpu/reference_convolution.hpp`; its body is not under
src/).  Given the operation descriptor and the engine, it succeeds only when
the engine kind is supported and the channel counts are non-zero, returning
a status that distinguishes `UnsupportedEngine` from
`InvalidOperationShape`.  It is a pure function of the two arguments:
no tensor data is touched and there are no side effects. -/
def constraint (opd : test_inner_product_descr_t) (e : engine_kind) : status :=
  if e = engine_kind.cpu ∨ e = engine_kind.cpu_lazy then
    if opd.ic = 0 ∨ opd.oc = 0 then status.invalid_operation_shape
    else status.success
  else status.unsupported_engine

/-- A primitive descriptor: an operation descriptor bound to an engine. -/
structure primitive_desc where
  opd : test_inner_product_descr_t
  eng : engine_kind
  deriving DecidableEq, Repr

/-- Modelled from the spec: primitive-descriptor construction requires a
prior successful `constraint`; on failure no primitive descriptor is
constructed. -/
def mkPrimitiveDesc (opd : test_inner_product_descr_t) (e : engine_kind) :
    Option primitive_desc :=
  if constraint opd e = status.success then some ⟨opd, e⟩ else none

/-- C6: the constraint check fails on an operation descriptor with zero
input or output channels, fails on an unsupported engine kind, distinguishes
the two failures as `InvalidOperationShape` versus `UnsupportedEngine`, and
no primitive descriptor is constructed on failure. -/
theorem c6_constraint_rejects :
    (∀ (opd : test_inner_product_descr_t) (e : engine_kind),
        opd.ic = 0 ∨ opd.oc = 0 → constraint opd e ≠ status.success) ∧
    (∀ (opd : test_inner_product_descr_t) (e : engine_kind),
        (e = engine_kind.cpu ∨ e = engine_kind.cpu_lazy) →
        (opd.ic = 0 ∨ opd.oc = 0) →
        constraint opd e = status.invalid_operation_shape) ∧
    (∀ opd : test_inner_product_descr_t,
        constraint opd engine_kind.any = status.unsupported_engine) ∧
    status.unsupported_engine ≠ status.invalid_operation_shape ∧
    (∀ (opd : test_inner_product_descr_t) (e : engine_kind),
        constraint opd e ≠ status.success → mkPrimitiveDesc opd e = none) := by
  refine ⟨?_, ?_, ?_, by decide, ?_⟩
  · intro opd e h
    cases e <;> simp [constraint, h]
  · intro opd e he h
    rcases he with rfl | rfl <;> simp [constraint, h]
  · intro opd
    simp [constraint]
  · intro opd e h
    simp [mkPrimitiveDesc, h]

/-- Witness for C6 at a zero-input-channel descriptor and at the
unsupported engine kind. -/
theorem c6_witness :
    ((⟨2, 0, 48, 6, 6⟩ : test_inner_product_descr_t).ic = 0 ∨
      (⟨2, 0, 48, 6, 6⟩ : test_inner_product_descr_t).oc = 0) ∧
    constraint ⟨2, 0, 48, 6, 6⟩ engine_kind.cpu ≠ status.success ∧
    constraint ⟨2, 0, 48, 6, 6⟩ engine_kind.cpu
      = status.invalid_operation_shape ∧
    constraint ⟨2, 32, 48, 6, 6⟩ engine_kind.any
      = status.unsupported_engine ∧
    mkPrimitiveDesc ⟨2, 0, 48, 6, 6⟩ engine_kind.cpu = none :=
  ⟨Or.inl rfl,
    c6_constraint_rejects.1 ⟨2, 0, 48, 6, 6⟩ engine_kind.cpu (Or.inl rfl),
    c6_constraint_rejects.2.1 ⟨2, 0, 48, 6, 6⟩ engine_kind.cpu
      (Or.inl rfl) (Or.inl rfl),
    c6_constraint_rejects.2.2.1 ⟨2, 32, 48, 6, 6⟩,
    c6_constraint_rejects.2.2.2.2 ⟨2, 0, 48, 6, 6⟩ engine_kind.cpu
      (c6_constraint_rejects.1 ⟨2, 0, 48, 6, 6⟩ engine_kind.cpu (Or.inl rfl))⟩

end Mkldnn
